import Mathlib

/-!
Verification of the message-reconciliation logic of the terminal-styled chat
client (`src/App.tsx`, `src/types.ts`).  The definitions below are a shallow
embedding of the view-mutating operations of the React component: the
`postgres_changes` INSERT callback (`onRemoteInsert`), the submit handler
(optimistic append, stream loop, error catch), and the history-load failure
path.  Machine integers of the source are modelled as `Nat`; the JavaScript
truthiness test `!msg.id` on the optional numeric field is modelled
faithfully (`undefined` and `0` are both falsy).
-/

namespace ChatLikeLook

/-- `Author` enumeration from `src/types.ts`. -/
inductive Author where
  | user
  | bot
deriving DecidableEq, Repr

/-- `Message` interface from `src/types.ts`: `id?: number; author: Author;
text: string`.  The optional durable identifier is `Option Nat`. -/
structure Message where
  id : Option Nat
  author : Author
  text : String
deriving DecidableEq, Repr

/-- The realtime payload `payload.new as { id: number; author; text }` of the
`postgres_changes` INSERT callback in `src/App.tsx`: the identifier is always
present on a delivered record. -/
structure RemoteMessage where
  id : Nat
  author : Author
  text : String
deriving DecidableEq, Repr

/-- A delivered record viewed as an element of the message list (the callback
stores `newMessage` unchanged into the array). -/
def RemoteMessage.toMessage (r : RemoteMessage) : Message :=
  ⟨some r.id, r.author, r.text⟩

/-- JavaScript truthiness of the optional numeric `id` field: `msg.id` is
truthy exactly when it is present and nonzero (`!msg.id` holds for
`undefined` and for `0`). -/
def idTruthy : Option Nat → Bool
  | none => false
  | some n => n != 0

/-- The condition of the manual reverse loop in the INSERT callback:
`!msg.id && msg.author === newMessage.author && msg.text === newMessage.text`. -/
def isOptimisticMatch (incoming : RemoteMessage) (m : Message) : Bool :=
  !idTruthy m.id && m.author == incoming.author && m.text == incoming.text

/-- Index of the last element satisfying `p`, i.e. the result of the source's
reverse `for` loop (`for (let i = length-1; i >= 0; i--) ... break`),
with `none` playing the role of `-1`. -/
def findLastIdx? (p : α → Bool) : List α → Option Nat
  | [] => none
  | x :: xs =>
    match findLastIdx? p xs with
    | some i => some (i + 1)
    | none => if p x then some 0 else none

/-- The `postgres_changes` INSERT callback of `src/App.tsx` (lines 192-217):
first a reverse scan for an optimistic placeholder with matching author and
text, replaced in place when found; otherwise append unless the incoming
identifier is already present. -/
def onRemoteInsert (msgs : List Message) (incoming : RemoteMessage) : List Message :=
  match findLastIdx? (isOptimisticMatch incoming) msgs with
  | some i => msgs.set i incoming.toMessage
  | none =>
    if msgs.any fun m => m.id == some incoming.id then msgs
    else msgs ++ [incoming.toMessage]

/-- Seeding the view from a fetched history (`setMessages storedMessages`). -/
def seed (history : List Message) : List Message :=
  history

/-- The optimistic user message of `handleSubmit`:
`{ author: Author.USER, text: input }` — no `id` field. -/
def optimisticUserMessage (input : String) : Message :=
  ⟨none, Author.user, input⟩

/-- The optimistic append `setMessages(prev => [...prev, userMessage])` of
`handleSubmit`. -/
def submitUserMessage (msgs : List Message) (input : String) : List Message :=
  msgs ++ [optimisticUserMessage input]

/-- One `setMessages` update of the stream loop in `handleSubmit`, with
`accumulated` the value of `accumulatedText` after the current chunk was
added: if the last message exists and is bot-authored its text is set to
`accumulated`, otherwise a fresh bot message is appended. -/
def applyStreamChunk (msgs : List Message) (accumulated : String) : List Message :=
  match msgs.getLast? with
  | some last =>
    if last.author == Author.bot then
      msgs.dropLast ++ [{ last with text := accumulated }]
    else
      msgs ++ [⟨none, Author.bot, accumulated⟩]
  | none => msgs ++ [⟨none, Author.bot, accumulated⟩]

/-- The whole `for await` stream loop: folds the chunks, threading
`accumulatedText` (second component). -/
def runStream (msgs : List Message) (chunks : List String) : List Message × String :=
  chunks.foldl
    (fun st c =>
      let acc := st.2 ++ c
      (applyStreamChunk st.1 acc, acc))
    (msgs, "")

/-- The static apology message of the `catch` block of `handleSubmit`. -/
def apologyMessage : Message :=
  ⟨none, Author.bot, "Sorry, I encountered an error. Please try again."⟩

/-- The `catch` block of `handleSubmit`:
`setMessages(prev => [...prev.slice(0, -1), errorMessage])`. -/
def onStreamError (msgs : List Message) : List Message :=
  msgs.dropLast ++ [apologyMessage]

/-- The room-session state touched by the history-load failure path: the
message view and the current room identifier. -/
structure SessionState where
  roomId : Option String
  messages : List Message
deriving DecidableEq, Repr

/-- The `catch` block of `loadRoomAndInitializeChat` (lines 173-178): the view
becomes a single bot error message and the room identifier is cleared. -/
def loadRoomFailure (errorDetails : String) : SessionState :=
  { roomId := none
    messages := [⟨none, Author.bot,
      "Error: Could not load chat room. Details: " ++ errorDetails⟩] }

/-- The whitespace class of the JavaScript `String.prototype.trim`:
WhiteSpace (tab, vertical tab, form feed, BOM, and every Space_Separator
code point: space, no-break space, U+1680, U+2000-U+200A, U+202F, U+205F,
U+3000) and LineTerminator (LF, CR, LS, PS) code points. -/
def isJsWhitespace (c : Char) : Bool :=
  c == ' ' || c == '\t' || c == '\n' || c == '\r' || c == '\x0b' || c == '\x0c'
    || c == '\u00A0' || c == '\u1680'
    || ('\u2000' ≤ c && c ≤ '\u200A')
    || c == '\u2028' || c == '\u2029' || c == '\u202F' || c == '\u205F'
    || c == '\u3000' || c == '\uFEFF'

/-- The JavaScript `input.trim()` of the submit guard: strip leading and
trailing whitespace. -/
def jsTrim (s : String) : String :=
  ⟨((s.data.dropWhile isJsWhitespace).reverse.dropWhile isJsWhitespace).reverse⟩

/-- Outcome of the completion request in `handleSubmit`: either the stream
completes with the given chunks, or it throws after delivering the given
chunks (possibly none). -/
inductive StreamOutcome where
  | success (chunks : List String)
  | failure (chunksBeforeError : List String)
deriving DecidableEq, Repr

/-- Observable result of one `handleSubmit` run: the final view, whether the
user message was persisted to the store, whether a completion request was
issued, and the finalized bot text persisted on success. -/
structure SubmitResult where
  messages : List Message
  userPersisted : Bool
  completionRequested : Bool
  botPersisted : Option String
deriving DecidableEq, Repr

/-- `handleSubmit` of `src/App.tsx` (lines 286-338), with the realtime echo of
the persistence writes modelled separately (`onRemoteInsert`): the guard
`if (!input.trim() || isLoading || !chat || !roomId) return;`, the optimistic
append, the stream loop, and the `catch` replacement. -/
def handleSubmit (input : String) (isLoading hasChat hasRoom : Bool)
    (msgs : List Message) (outcome : StreamOutcome) : SubmitResult :=
  if jsTrim input == "" || isLoading || !hasChat || !hasRoom then
    ⟨msgs, false, false, none⟩
  else
    let afterUser := submitUserMessage msgs input
    match outcome with
    | .success chunks =>
      let r := runStream afterUser chunks
      ⟨r.1, true, true, some r.2⟩
    | .failure chunks =>
      let r := runStream afterUser chunks
      ⟨onStreamError r.1, true, true, none⟩

/-- The durable identifiers present in a view (truthy `id` fields, i.e. the
identifiers the INSERT callback's duplicate check can observe on entries). -/
def presentIds (msgs : List Message) : List Nat :=
  msgs.filterMap fun m =>
    match m.id with
    | some n => if n = 0 then none else some n
    | none => none

/-- The data-model invariant of the spec: no two entries of the view share a
non-absent identity. -/
def idInvariant (msgs : List Message) : Prop :=
  (presentIds msgs).Nodup

instance : DecidablePred idInvariant := fun msgs =>
  inferInstanceAs (Decidable (presentIds msgs).Nodup)

/-- A sequence of deliveries applied to a view through the INSERT callback. -/
def applyDeliveries (msgs : List Message) (ds : List RemoteMessage) : List Message :=
  ds.foldl onRemoteInsert msgs

/-- First-occurrence deduplication of a delivery sequence by identifier,
skipping identifiers in `seen`. -/
def dedupById (seen : List Nat) : List RemoteMessage → List RemoteMessage
  | [] => []
  | d :: ds =>
    if d.id ∈ seen then dedupById seen ds
    else d :: dedupById (seen ++ [d.id]) ds

/-- Stream completion in `handleSubmit`: after the `for await` loop ends the
final text is persisted to the store, but no further `setMessages` call is
made — the view is left unchanged. -/
def endStream (msgs : List Message) : List Message :=
  msgs

/-- Concatenation of the stream chunks, the final value of
`accumulatedText`. -/
def concatChunks : List String → String
  | [] => ""
  | c :: cs => c ++ concatChunks cs

theorem findLastIdx?_eq_none_iff {p : α → Bool} {l : List α} :
    findLastIdx? p l = none ↔ ∀ a ∈ l, p a = false := by
  induction l with
  | nil => simp [findLastIdx?]
  | cons x xs ih =>
    simp only [findLastIdx?]
    cases h : findLastIdx? p xs with
    | some i =>
      simp only [reduceCtorEq, false_iff, not_forall]
      have : ¬ ∀ a ∈ xs, p a = false := fun hall => by
        rw [ih.mpr hall] at h
        exact Option.noConfusion h
      push_neg at this
      obtain ⟨a, ha, hpa⟩ := this
      exact ⟨a, List.mem_cons_of_mem _ ha, hpa⟩
    | none =>
      have hxs : ∀ a ∈ xs, p a = false := ih.mp h
      constructor
      · intro hif
        intro a ha
        rcases List.mem_cons.mp ha with rfl | hmem
        · by_contra hpa
          simp only [ne_eq, Bool.not_eq_false] at hpa
          rw [if_pos hpa] at hif
          exact Option.noConfusion hif
        · exact hxs a hmem
      · intro hall
        rw [if_neg]
        simp [hall x (List.mem_cons_self x xs)]

theorem findLastIdx?_sound {p : α → Bool} :
    ∀ {l : List α} {i : Nat}, findLastIdx? p l = some i →
      ∃ h : i < l.length, p (l.get ⟨i, h⟩) = true := by
  intro l
  induction l with
  | nil => intro i h; exact Option.noConfusion h
  | cons x xs ih =>
    intro i h
    simp only [findLastIdx?] at h
    cases hxs : findLastIdx? p xs with
    | some k =>
      rw [hxs] at h
      obtain rfl : k + 1 = i := Option.some.inj h
      obtain ⟨hk, hp⟩ := ih hxs
      exact ⟨Nat.succ_lt_succ hk, by simpa using hp⟩
    | none =>
      rw [hxs] at h
      by_cases hp : p x = true
      · rw [if_pos hp] at h
        obtain rfl : 0 = i := Option.some.inj h
        exact ⟨Nat.succ_pos _, by simpa using hp⟩
      · rw [if_neg (by simpa using hp)] at h
        exact Option.noConfusion h

theorem findLastIdx?_complete {p : α → Bool} :
    ∀ (l : List α) (i : Nat) (hi : i < l.length),
      p (l.get ⟨i, hi⟩) = true →
      (∀ j (hj : j < l.length), i < j → p (l.get ⟨j, hj⟩) = false) →
      findLastIdx? p l = some i := by
  intro l
  induction l with
  | nil => intro i hi; exact absurd hi (by simp)
  | cons x xs ih =>
    intro i hi hp hmax
    cases i with
    | zero =>
      have hxs : findLastIdx? p xs = none := by
        rw [findLastIdx?_eq_none_iff]
        intro a ha
        obtain ⟨⟨k, hk⟩, rfl⟩ := List.mem_iff_get.mp ha
        have := hmax (k + 1) (Nat.succ_lt_succ hk) (Nat.succ_pos k)
        simpa using this
      have hpx : p x = true := by simpa using hp
      simp [findLastIdx?, hxs, hpx]
    | succ n =>
      have hn : n < xs.length := Nat.lt_of_succ_lt_succ hi
      have hp' : p (xs.get ⟨n, hn⟩) = true := by simpa using hp
      have hmax' : ∀ j (hj : j < xs.length), n < j → p (xs.get ⟨j, hj⟩) = false := by
        intro j hj hnj
        have := hmax (j + 1) (Nat.succ_lt_succ hj) (Nat.succ_lt_succ hnj)
        simpa using this
      have := ih n hn hp' hmax'
      simp [findLastIdx?, this]

theorem findLastIdx?_concat_of_pos (p : α → Bool) (l : List α) (x : α) (hx : p x = true) :
    findLastIdx? p (l ++ [x]) = some l.length := by
  induction l with
  | nil => simp [findLastIdx?, hx]
  | cons y ys ih => simp [findLastIdx?, ih]

theorem set_at_concat_length (l : List α) (x y : α) :
    (l ++ [x]).set l.length y = l ++ [y] := by
  induction l with
  | nil => rfl
  | cons a as ih => simp [ih]

theorem onRemoteInsert_replace {msgs : List Message} {incoming : RemoteMessage} {i : Nat}
    (h : findLastIdx? (isOptimisticMatch incoming) msgs = some i) :
    onRemoteInsert msgs incoming = msgs.set i incoming.toMessage := by
  simp [onRemoteInsert, h]

theorem onRemoteInsert_skip {msgs : List Message} {incoming : RemoteMessage}
    (h1 : findLastIdx? (isOptimisticMatch incoming) msgs = none)
    (h2 : (msgs.any fun m => m.id == some incoming.id) = true) :
    onRemoteInsert msgs incoming = msgs := by
  simp only [onRemoteInsert, h1, h2, if_true]

theorem onRemoteInsert_append {msgs : List Message} {incoming : RemoteMessage}
    (h1 : findLastIdx? (isOptimisticMatch incoming) msgs = none)
    (h2 : (msgs.any fun m => m.id == some incoming.id) = false) :
    onRemoteInsert msgs incoming = msgs ++ [incoming.toMessage] := by
  simp only [onRemoteInsert, h1, h2, Bool.false_eq_true, if_false]

theorem applyStreamChunk_concat_bot (base : List Message) (m : Message)
    (hm : m.author = Author.bot) (acc : String) :
    applyStreamChunk (base ++ [m]) acc = base ++ [{ m with text := acc }] := by
  simp [applyStreamChunk, List.getLast?_concat, hm, List.dropLast_concat]

theorem applyStreamChunk_not_bot (msgs : List Message)
    (h : ∀ m, msgs.getLast? = some m → ¬ m.author = Author.bot) (acc : String) :
    applyStreamChunk msgs acc = msgs ++ [⟨none, Author.bot, acc⟩] := by
  unfold applyStreamChunk
  cases hl : msgs.getLast? with
  | none => rfl
  | some m => simp [h m hl]

theorem runStream_go (chunks : List String) :
    ∀ (base : List Message) (acc : String),
      List.foldl
        (fun st c =>
          let acc := st.2 ++ c
          (applyStreamChunk st.1 acc, acc))
        (base ++ [⟨none, Author.bot, acc⟩], acc) chunks
      = (base ++ [⟨none, Author.bot, acc ++ concatChunks chunks⟩],
          acc ++ concatChunks chunks) := by
  induction chunks with
  | nil => intro base acc; simp [concatChunks, String.append_empty]
  | cons c cs ih =>
    intro base acc
    simp only [List.foldl]
    rw [applyStreamChunk_concat_bot base _ rfl (acc ++ c), ih base (acc ++ c)]
    simp [concatChunks, String.append_assoc]

theorem runStream_cons (msgs : List Message)
    (h : ∀ m, msgs.getLast? = some m → ¬ m.author = Author.bot)
    (c : String) (cs : List String) :
    runStream msgs (c :: cs)
      = (msgs ++ [⟨none, Author.bot, concatChunks (c :: cs)⟩], concatChunks (c :: cs)) := by
  unfold runStream
  simp only [List.foldl]
  rw [applyStreamChunk_not_bot msgs h ("" ++ c), runStream_go cs msgs ("" ++ c)]
  simp [concatChunks, String.empty_append]

theorem presentIds_append (l1 l2 : List Message) :
    presentIds (l1 ++ l2) = presentIds l1 ++ presentIds l2 :=
  List.filterMap_append l1 l2 _

theorem presentIds_cons (m : Message) (l : List Message) :
    presentIds (m :: l) = presentIds [m] ++ presentIds l := by
  rw [show m :: l = [m] ++ l from rfl, presentIds_append]

theorem presentIds_singleton_falsy {m : Message} (h : idTruthy m.id = false) :
    presentIds [m] = [] := by
  cases hid : m.id with
  | none => simp [presentIds, hid]
  | some k =>
    rw [hid] at h
    simp only [idTruthy, bne_eq_false_iff_eq] at h
    simp [presentIds, hid, h]

theorem presentIds_singleton_truthy {m : Message} {k : Nat} (h : m.id = some k)
    (hk : k ≠ 0) : presentIds [m] = [k] := by
  simp [presentIds, h, hk]

theorem mem_presentIds {msgs : List Message} {n : Nat} :
    n ∈ presentIds msgs ↔ (∃ m ∈ msgs, m.id = some n) ∧ n ≠ 0 := by
  rw [presentIds, List.mem_filterMap]
  constructor
  · rintro ⟨m, hm, hf⟩
    cases hid : m.id with
    | none => rw [hid] at hf; exact Option.noConfusion hf
    | some k =>
      rw [hid] at hf
      by_cases hk : k = 0
      · simp [hk] at hf
      · simp only [hk, if_false, ite_false, Option.some.injEq] at hf
        cases hf
        exact ⟨⟨m, hm, hid⟩, hk⟩
  · rintro ⟨⟨m, hm, hid⟩, hn⟩
    exact ⟨m, hm, by rw [hid]; simp [hn]⟩

theorem not_mem_presentIds_of_any_false {msgs : List Message} {incoming : RemoteMessage}
    (ha : (msgs.any fun m => m.id == some incoming.id) = false) :
    incoming.id ∉ presentIds msgs := by
  intro hmem
  obtain ⟨⟨m, hm, hid⟩, _⟩ := mem_presentIds.mp hmem
  have : (msgs.any fun m => m.id == some incoming.id) = true :=
    List.any_eq_true.mpr ⟨m, hm, by simp [hid]⟩
  rw [ha] at this
  exact Bool.noConfusion this

theorem presentIds_applyStreamChunk (msgs : List Message) (acc : String) :
    presentIds (applyStreamChunk msgs acc) = presentIds msgs := by
  induction msgs using List.reverseRecOn with
  | nil =>
    rw [applyStreamChunk_not_bot [] (fun m hm => Option.noConfusion hm) acc]
    rw [List.nil_append, presentIds_singleton_falsy (m := ⟨none, Author.bot, acc⟩) rfl]
    rfl
  | append_singleton l m ih =>
    by_cases hb : m.author = Author.bot
    · rw [applyStreamChunk_concat_bot l m hb acc, presentIds_append, presentIds_append]
      congr 1
    · rw [applyStreamChunk_not_bot (l ++ [m])
        (fun m' hm' => by
          rw [List.getLast?_concat] at hm'
          cases Option.some.inj hm'
          exact hb) acc]
      rw [presentIds_append (l ++ [m]),
        presentIds_singleton_falsy (m := ⟨none, Author.bot, acc⟩) rfl, List.append_nil]

theorem presentIds_runStream_aux (chunks : List String) :
    ∀ (st : List Message × String),
      presentIds
        (List.foldl
          (fun st c =>
            let acc := st.2 ++ c
            (applyStreamChunk st.1 acc, acc))
          st chunks).1
      = presentIds st.1 := by
  induction chunks with
  | nil => intro st; rfl
  | cons c cs ih =>
    intro st
    simp only [List.foldl]
    rw [ih]
    exact presentIds_applyStreamChunk st.1 (st.2 ++ c)

theorem presentIds_runStream (msgs : List Message) (chunks : List String) :
    presentIds (runStream msgs chunks).1 = presentIds msgs :=
  presentIds_runStream_aux chunks (msgs, "")

theorem idInvariant_onRemoteInsert {msgs : List Message} {incoming : RemoteMessage}
    (hinv : idInvariant msgs)
    (hside : (msgs.any fun m => m.id == some incoming.id) = false
        ∨ findLastIdx? (isOptimisticMatch incoming) msgs = none) :
    idInvariant (onRemoteInsert msgs incoming) := by
  cases hf : findLastIdx? (isOptimisticMatch incoming) msgs with
  | none =>
    cases ha : msgs.any fun m => m.id == some incoming.id with
    | true => rw [onRemoteInsert_skip hf ha]; exact hinv
    | false =>
      rw [onRemoteInsert_append hf ha]
      rw [idInvariant, presentIds_append]
      by_cases hz : incoming.id = 0
      · rw [presentIds_singleton_falsy
          (show idTruthy incoming.toMessage.id = false by
            simp [RemoteMessage.toMessage, idTruthy, hz])]
        rw [List.append_nil]
        exact hinv
      · rw [presentIds_singleton_truthy
          (show incoming.toMessage.id = some incoming.id from rfl) hz]
        refine List.Nodup.append hinv (List.nodup_singleton _) ?_
        rw [List.disjoint_left]
        intro a hamem hacontra
        obtain rfl := List.mem_singleton.mp hacontra
        exact not_mem_presentIds_of_any_false ha hamem
  | some i =>
    have ha : (msgs.any fun m => m.id == some incoming.id) = false := by
      rcases hside with h | h
      · exact h
      · rw [h] at hf
        exact Option.noConfusion hf
    rw [onRemoteInsert_replace hf]
    obtain ⟨hi, hp⟩ := findLastIdx?_sound hf
    have hold : idTruthy (msgs.get ⟨i, hi⟩).id = false := by
      simp only [isOptimisticMatch, Bool.and_eq_true, Bool.not_eq_eq_eq_not,
        Bool.not_true] at hp
      exact hp.1.1
    have hdecomp : msgs = msgs.take i ++ msgs.get ⟨i, hi⟩ :: msgs.drop (i + 1) := by
      conv_lhs => rw [← List.take_append_drop i msgs]
      rw [List.drop_eq_getElem_cons hi]
      rfl
    have hset : msgs.set i incoming.toMessage
        = msgs.take i ++ incoming.toMessage :: msgs.drop (i + 1) := by
      rw [List.set_eq_take_append_cons_drop, if_pos hi]
    rw [idInvariant, hset, presentIds_append, presentIds_cons]
    have hinv' : (presentIds (msgs.take i) ++ presentIds (msgs.drop (i + 1))).Nodup := by
      have := hinv
      rw [idInvariant] at this
      conv at this => rw [hdecomp]
      rw [presentIds_append, presentIds_cons, presentIds_singleton_falsy hold,
        List.nil_append] at this
      exact this
    have hnotin : incoming.id ∉ presentIds (msgs.take i) ++ presentIds (msgs.drop (i + 1)) := by
      have := not_mem_presentIds_of_any_false ha
      conv at this => rw [hdecomp]
      rw [presentIds_append, presentIds_cons, presentIds_singleton_falsy hold,
        List.nil_append] at this
      exact this
    by_cases hz : incoming.id = 0
    · rw [presentIds_singleton_falsy
        (show idTruthy incoming.toMessage.id = false by
          simp [RemoteMessage.toMessage, idTruthy, hz])]
      rw [List.nil_append, ← presentIds_append]
      rw [← presentIds_append] at hinv'
      exact hinv'
    · rw [presentIds_singleton_truthy
        (show incoming.toMessage.id = some incoming.id from rfl) hz]
      rw [show presentIds (msgs.take i) ++ ([incoming.id] ++ presentIds (msgs.drop (i + 1)))
          = presentIds (msgs.take i) ++ incoming.id :: presentIds (msgs.drop (i + 1)) by
        simp]
      rw [List.nodup_middle]
      exact List.Nodup.cons hnotin hinv'

theorem runStream_submit (msgs : List Message) (input : String) (c : String)
    (cs : List String) :
    runStream (submitUserMessage msgs input) (c :: cs)
      = (submitUserMessage msgs input ++ [⟨none, Author.bot, concatChunks (c :: cs)⟩],
          concatChunks (c :: cs)) := by
  apply runStream_cons
  intro m hm
  rw [submitUserMessage, List.getLast?_concat] at hm
  cases Option.some.inj hm
  simp [optimisticUserMessage]

theorem mem_of_mem_dedupById :
    ∀ (ds : List RemoteMessage) (seen : List Nat) (d : RemoteMessage),
      d ∈ dedupById seen ds → d ∈ ds := by
  intro ds
  induction ds with
  | nil => intro seen d h; exact absurd h (by simp [dedupById])
  | cons x xs ih =>
    intro seen d h
    rw [dedupById] at h
    by_cases hx : x.id ∈ seen
    · rw [if_pos hx] at h
      exact List.mem_cons_of_mem _ (ih _ _ h)
    · rw [if_neg hx] at h
      rcases List.mem_cons.mp h with rfl | hmem
      · exact List.mem_cons_self _ _
      · exact List.mem_cons_of_mem _ (ih _ _ hmem)

theorem dedupById_ids_nodup :
    ∀ (ds : List RemoteMessage) (seen : List Nat),
      ((dedupById seen ds).map RemoteMessage.id).Nodup
      ∧ ∀ n ∈ (dedupById seen ds).map RemoteMessage.id, n ∉ seen := by
  intro ds
  induction ds with
  | nil => intro seen; exact ⟨by simp [dedupById], by simp [dedupById]⟩
  | cons x xs ih =>
    intro seen
    rw [dedupById]
    by_cases hx : x.id ∈ seen
    · rw [if_pos hx]
      exact ih seen
    · rw [if_neg hx]
      obtain ⟨hnd, hnot⟩ := ih (seen ++ [x.id])
      refine ⟨?_, ?_⟩
      · rw [List.map_cons]
        refine List.Nodup.cons (fun hmem => hnot _ hmem (by simp)) hnd
      · intro n hn
        rw [List.map_cons] at hn
        rcases List.mem_cons.mp hn with rfl | hmem
        · exact hx
        · intro hseen
          exact hnot n hmem (by simp [hseen])

theorem presentIds_map_toMessage :
    ∀ l : List RemoteMessage, (∀ d ∈ l, d.id ≠ 0) →
      presentIds (l.map RemoteMessage.toMessage) = l.map RemoteMessage.id := by
  intro l
  induction l with
  | nil => intro h; rfl
  | cons d ds ih =>
    intro h
    rw [List.map_cons, List.map_cons, presentIds_cons,
      presentIds_singleton_truthy (show d.toMessage.id = some d.id from rfl)
        (h d (List.mem_cons_self _ _)),
      ih fun d hd => h d (List.mem_cons_of_mem _ hd)]
    rfl

theorem applyDeliveries_eq_append_dedup :
    ∀ (ds : List RemoteMessage) (init : List Message),
      (∀ m ∈ init, idTruthy m.id = true) →
      (∀ d ∈ ds, d.id ≠ 0) →
      applyDeliveries init ds
        = init ++ (dedupById (presentIds init) ds).map RemoteMessage.toMessage := by
  intro ds
  induction ds with
  | nil => intro init h1 h2; simp [applyDeliveries, dedupById]
  | cons d ds ih =>
    intro init h1 h2
    have hd0 : d.id ≠ 0 := h2 d (List.mem_cons_self _ _)
    have hf : findLastIdx? (isOptimisticMatch d) init = none := by
      rw [findLastIdx?_eq_none_iff]
      intro m hm
      simp [isOptimisticMatch, h1 m hm]
    have hmem_iff : d.id ∈ presentIds init
        ↔ (init.any fun m => m.id == some d.id) = true := by
      rw [mem_presentIds, List.any_eq_true]
      constructor
      · rintro ⟨⟨m, hm, hid⟩, _⟩
        exact ⟨m, hm, by simp [hid]⟩
      · rintro ⟨m, hm, hbeq⟩
        have hid : m.id = some d.id := by simpa using hbeq
        exact ⟨⟨m, hm, hid⟩, hd0⟩
    rw [show applyDeliveries init (d :: ds) = applyDeliveries (onRemoteInsert init d) ds
      from rfl]
    rw [dedupById]
    cases ha : init.any fun m => m.id == some d.id with
    | true =>
      rw [onRemoteInsert_skip hf ha, if_pos (hmem_iff.mpr ha)]
      exact ih init h1 fun x hx => h2 x (List.mem_cons_of_mem _ hx)
    | false =>
      have hnotmem : d.id ∉ presentIds init := fun hmem => by
        rw [hmem_iff.mp hmem] at ha
        exact Bool.noConfusion ha
      rw [onRemoteInsert_append hf ha, if_neg hnotmem]
      have h1a : ∀ m ∈ init ++ [d.toMessage], idTruthy m.id = true := by
        intro m hm
        rcases List.mem_append.mp hm with hmem | hmem
        · exact h1 m hmem
        · obtain rfl := List.mem_singleton.mp hmem
          simp [RemoteMessage.toMessage, idTruthy, hd0]
      rw [ih (init ++ [d.toMessage]) h1a fun x hx => h2 x (List.mem_cons_of_mem _ hx)]
      rw [presentIds_append,
        presentIds_singleton_truthy (show d.toMessage.id = some d.id from rfl) hd0]
      simp

/-- C1: for every view whose stored identities are positive and every incoming
message, when `i` is the most recent (largest) index holding an entry with
absent identity and author and text equal to the incoming message, the INSERT
callback replaces that entry in place with the incoming record, preserving
its position; in particular a view ending in the optimistic placeholder
`{author: user, identity: absent, text: "ping"}` is merged with the incoming
`{identity: 7, author: user, text: "ping"}` by mutating that last element to
carry identity 7, creating no second entry. -/
theorem C1_reverse_scan_replacement :
    (∀ (msgs : List Message) (incoming : RemoteMessage) (i : Nat),
      (∀ m ∈ msgs, m.id ≠ some 0) →
      ∀ hi : i < msgs.length,
      (msgs.get ⟨i, hi⟩).id = none →
      (msgs.get ⟨i, hi⟩).author = incoming.author →
      (msgs.get ⟨i, hi⟩).text = incoming.text →
      (∀ j, ∀ hj : j < msgs.length, i < j →
        ¬((msgs.get ⟨j, hj⟩).id = none
          ∧ (msgs.get ⟨j, hj⟩).author = incoming.author
          ∧ (msgs.get ⟨j, hj⟩).text = incoming.text)) →
      onRemoteInsert msgs incoming = msgs.set i incoming.toMessage)
    ∧ ∀ older : List Message,
        onRemoteInsert (older ++ [⟨none, Author.user, "ping"⟩]) ⟨7, Author.user, "ping"⟩
          = older ++ [⟨some 7, Author.user, "ping"⟩] := by
  constructor
  · intro msgs incoming i hpos hi hid hauthor htext hmax
    apply onRemoteInsert_replace
    apply findLastIdx?_complete msgs i hi
    · simp only [List.get_eq_getElem] at hid hauthor htext
      simp [isOptimisticMatch, hid, hauthor, htext, idTruthy]
    · intro j hj hij
      by_contra hcontra
      simp only [Bool.not_eq_false, isOptimisticMatch, Bool.and_eq_true,
        beq_iff_eq, Bool.not_eq_eq_eq_not, Bool.not_true] at hcontra
      obtain ⟨⟨hfalsy, hauth⟩, htxt⟩ := hcontra
      have hidn : (msgs.get ⟨j, hj⟩).id = none := by
        cases hidj : (msgs.get ⟨j, hj⟩).id with
        | none => rfl
        | some k =>
          rw [hidj] at hfalsy
          simp only [idTruthy, bne_eq_false_iff_eq] at hfalsy
          subst hfalsy
          exact absurd hidj (hpos _ (List.get_mem msgs j hj))
      exact hmax j hj hij ⟨hidn, hauth, htxt⟩
  · intro older
    rw [onRemoteInsert_replace
      (findLastIdx?_concat_of_pos (isOptimisticMatch ⟨7, Author.user, "ping"⟩)
        older ⟨none, Author.user, "ping"⟩ (by decide))]
    rw [set_at_concat_length]
    rfl

/-- C1 witness: the reverse-scan replacement applied to a concrete
two-element view whose last element is the matching placeholder. -/
theorem C1_reverse_scan_replacement_witness :
    (∀ m ∈ ([⟨some 3, Author.bot, "hi"⟩, ⟨none, Author.user, "ping"⟩] : List Message),
      m.id ≠ some 0)
    ∧ onRemoteInsert [⟨some 3, Author.bot, "hi"⟩, ⟨none, Author.user, "ping"⟩]
        ⟨7, Author.user, "ping"⟩
      = ([⟨some 3, Author.bot, "hi"⟩, ⟨none, Author.user, "ping"⟩] : List Message).set 1
          (RemoteMessage.toMessage ⟨7, Author.user, "ping"⟩) :=
  ⟨by decide,
    C1_reverse_scan_replacement.1 _ _ 1 (by decide) (by decide) (by decide) (by decide)
      (by decide) (by decide)⟩

/-- C2 counterexample: identity 7 is already present in the view, yet the
callback is not a no-op — the matching identity-absent placeholder is
replaced first, so the view changes (and now holds identity 7 twice). -/
theorem C2_duplicate_noop_counterexample :
    (⟨some 7, Author.user, "x"⟩ : Message)
        ∈ ([⟨some 7, Author.user, "x"⟩, ⟨none, Author.user, "x"⟩] : List Message)
    ∧ onRemoteInsert [⟨some 7, Author.user, "x"⟩, ⟨none, Author.user, "x"⟩]
        ⟨7, Author.user, "x"⟩
      ≠ [⟨some 7, Author.user, "x"⟩, ⟨none, Author.user, "x"⟩] := by
  decide

/-- C2 (amended): the INSERT callback for an identity already present in the
view is a no-op, provided no entry with falsy identity and matching author
and text is present (such an entry would be captured by the prior reverse
scan). -/
theorem C2_duplicate_noop :
    ∀ (msgs : List Message) (incoming : RemoteMessage),
      (∃ m ∈ msgs, m.id = some incoming.id) →
      (∀ m ∈ msgs, isOptimisticMatch incoming m = false) →
      onRemoteInsert msgs incoming = msgs := by
  rintro msgs incoming ⟨m, hm, hid⟩ hnoph
  exact onRemoteInsert_skip (findLastIdx?_eq_none_iff.mpr hnoph)
    (List.any_eq_true.mpr ⟨m, hm, by simp [hid]⟩)

/-- C2 witness: a redelivery of identity 7 into a view already carrying it,
with no placeholder present, leaves the view unchanged. -/
theorem C2_duplicate_noop_witness :
    (∃ m ∈ ([⟨some 7, Author.user, "x"⟩, ⟨some 8, Author.bot, "y"⟩] : List Message),
      m.id = some 7)
    ∧ onRemoteInsert [⟨some 7, Author.user, "x"⟩, ⟨some 8, Author.bot, "y"⟩]
        ⟨7, Author.user, "x"⟩
      = [⟨some 7, Author.user, "x"⟩, ⟨some 8, Author.bot, "y"⟩] :=
  ⟨⟨⟨some 7, Author.user, "x"⟩, by decide, rfl⟩,
    C2_duplicate_noop _ _ ⟨⟨some 7, Author.user, "x"⟩, by decide, rfl⟩ (by decide)⟩

/-- C3 counterexample: the sequence seed of the empty history, remote insert
of identity 7 with text "x", optimistic submission of the same text "x", and
a redelivery of the same record of identity 7, produces a view holding the
non-absent identity 7 twice — the invariant is not preserved. -/
theorem C3_identity_invariant_counterexample :
    ¬ idInvariant (onRemoteInsert
        (submitUserMessage (onRemoteInsert (seed []) ⟨7, Author.user, "x"⟩) "x")
        ⟨7, Author.user, "x"⟩) := by
  decide

/-- C3 (amended): seeding from a history with distinct present identities,
optimistic user submission, every stream update, stream end, and any
`onRemoteInsert` whose incoming identity is not yet present or that finds no
falsy-identity entry with matching author and text, preserve the invariant
that no two entries share a non-absent identity.  (A redelivery of an
identity already present that finds a matching identity-absent placeholder
violates it, as the counterexample shows.) -/
theorem C3_identity_invariant_preservation :
    (∀ history : List Message, (presentIds history).Nodup → idInvariant (seed history))
    ∧ (∀ (msgs : List Message) (input : String),
        idInvariant msgs → idInvariant (submitUserMessage msgs input))
    ∧ (∀ (msgs : List Message) (chunks : List String),
        idInvariant msgs → idInvariant (runStream msgs chunks).1)
    ∧ (∀ msgs : List Message, idInvariant msgs → idInvariant (endStream msgs))
    ∧ (∀ (msgs : List Message) (incoming : RemoteMessage),
        idInvariant msgs →
        ((msgs.any fun m => m.id == some incoming.id) = false
          ∨ findLastIdx? (isOptimisticMatch incoming) msgs = none) →
        idInvariant (onRemoteInsert msgs incoming)) := by
  refine ⟨fun history h => h, ?_, ?_, fun msgs h => h,
    fun msgs inc h hs => idInvariant_onRemoteInsert h hs⟩
  · intro msgs input hinv
    rw [idInvariant, submitUserMessage, presentIds_append,
      presentIds_singleton_falsy (m := optimisticUserMessage input) rfl, List.append_nil]
    exact hinv
  · intro msgs chunks hinv
    rw [idInvariant, presentIds_runStream]
    exact hinv

/-- C3 witness: the invariant-preserving insert case applied to a concrete
one-element view and a fresh identity. -/
theorem C3_identity_invariant_preservation_witness :
    idInvariant ([⟨some 5, Author.bot, "w"⟩] : List Message)
    ∧ (([⟨some 5, Author.bot, "w"⟩] : List Message).any fun m => m.id == some 9) = false
    ∧ idInvariant (onRemoteInsert [⟨some 5, Author.bot, "w"⟩] ⟨9, Author.user, "q"⟩) :=
  ⟨by decide, by decide,
    C3_identity_invariant_preservation.2.2.2.2 _ _ (by decide) (Or.inl (by decide))⟩

/-- C4 counterexample: repeated delivery of identity 7 into a view holding
two identity-absent placeholders with matching author and text leaves the
final view with two entries carrying identity 7 — not exactly one entry per
delivered identity. -/
theorem C4_distinct_deliveries_counterexample :
    ((applyDeliveries [⟨none, Author.user, "x"⟩, ⟨none, Author.user, "x"⟩]
        [⟨7, Author.user, "x"⟩, ⟨7, Author.user, "x"⟩]).countP
      fun m => m.id == some 7) = 2 := by
  decide

/-- C4 (amended): starting from a view all of whose entries carry present
(truthy) identities, a sequence of deliveries with nonzero identifiers
appends exactly one entry per first occurrence of each identity not already
present, in arrival order, even under repeated delivery; and the resulting
present identities remain duplicate-free when the initial ones were. -/
theorem C4_distinct_deliveries :
    ∀ (ds : List RemoteMessage) (init : List Message),
      (∀ m ∈ init, idTruthy m.id = true) →
      (∀ d ∈ ds, d.id ≠ 0) →
      applyDeliveries init ds
        = init ++ (dedupById (presentIds init) ds).map RemoteMessage.toMessage
      ∧ ((presentIds init).Nodup → (presentIds (applyDeliveries init ds)).Nodup) := by
  intro ds init h1 h2
  have hform := applyDeliveries_eq_append_dedup ds init h1 h2
  refine ⟨hform, fun hnd => ?_⟩
  rw [hform, presentIds_append,
    presentIds_map_toMessage _ fun d hd => h2 d (mem_of_mem_dedupById ds _ d hd)]
  obtain ⟨hnodup, hnotseen⟩ := dedupById_ids_nodup ds (presentIds init)
  exact List.Nodup.append hnd hnodup
    (List.disjoint_left.mpr fun a ha hmem => hnotseen a hmem ha)

/-- C4 witness: a delivery sequence with one repeated identifier applied to
a concrete placeholder-free view. -/
theorem C4_distinct_deliveries_witness :
    (∀ m ∈ ([⟨some 1, Author.bot, "w"⟩] : List Message), idTruthy m.id = true)
    ∧ applyDeliveries [⟨some 1, Author.bot, "w"⟩]
        [⟨7, Author.user, "a"⟩, ⟨7, Author.user, "a"⟩, ⟨8, Author.bot, "b"⟩]
      = [⟨some 1, Author.bot, "w"⟩]
          ++ (dedupById (presentIds [⟨some 1, Author.bot, "w"⟩])
                [⟨7, Author.user, "a"⟩, ⟨7, Author.user, "a"⟩, ⟨8, Author.bot, "b"⟩]).map
              RemoteMessage.toMessage :=
  ⟨by decide,
    (C4_distinct_deliveries
      [⟨7, Author.user, "a"⟩, ⟨7, Author.user, "a"⟩, ⟨8, Author.bot, "b"⟩]
      [⟨some 1, Author.bot, "w"⟩] (by decide) (by decide)).1⟩

/-- C5: during a bot response stream started right after an optimistic user
submission, the first chunk appends a single trailing bot message with absent
identity, each later chunk only rewrites that same trailing element's text
(the accumulated concatenation), and the final view carries exactly one new
trailing bot element whose text is the concatenation of all chunks; for the
chunks ["Hel", "lo"], one trailing element with text "Hello". -/
theorem C5_stream_single_trailing_bot :
    (∀ (msgs : List Message) (input c : String) (cs : List String),
      (runStream (submitUserMessage msgs input) (c :: cs)).1
        = submitUserMessage msgs input ++ [⟨none, Author.bot, concatChunks (c :: cs)⟩])
    ∧ (∀ (base : List Message) (acc c : String),
      applyStreamChunk (base ++ [⟨none, Author.bot, acc⟩]) (acc ++ c)
        = base ++ [⟨none, Author.bot, acc ++ c⟩])
    ∧ (runStream (submitUserMessage [] "hi") ["Hel", "lo"]).1
        = [optimisticUserMessage "hi", ⟨none, Author.bot, "Hello"⟩] := by
  refine ⟨?_, ?_, by decide⟩
  · intro msgs input c cs
    rw [runStream_submit]
  · intro base acc c
    exact applyStreamChunk_concat_bot base _ rfl _

/-- C6 counterexample: when the completion request fails before any chunk has
arrived, the `catch` block removes the optimistic user message itself — the
view becomes the lone apology message and the user message is gone, contrary
to the claim that it remains. -/
theorem C6_error_replacement_counterexample :
    onStreamError (runStream (submitUserMessage [] "ping") []).1 = [apologyMessage]
    ∧ optimisticUserMessage "ping"
        ∉ onStreamError (runStream (submitUserMessage [] "ping") []).1 := by
  decide

/-- C6 (amended): when the stream fails after at least one chunk has arrived,
the trailing optimistic bot placeholder is replaced by the static apology and
the user message that triggered the request remains in place; when the
failure occurs before any chunk, the user message itself is replaced by the
apology. -/
theorem C6_error_replacement :
    (∀ (msgs : List Message) (input c : String) (cs : List String),
      onStreamError (runStream (submitUserMessage msgs input) (c :: cs)).1
        = msgs ++ [optimisticUserMessage input, apologyMessage])
    ∧ (∀ (msgs : List Message) (input : String),
      onStreamError (runStream (submitUserMessage msgs input) []).1
        = msgs ++ [apologyMessage]) := by
  constructor
  · intro msgs input c cs
    rw [runStream_submit]
    unfold onStreamError
    rw [List.dropLast_concat]
    simp [submitUserMessage]
  · intro msgs input
    rw [show (runStream (submitUserMessage msgs input) []).1
      = submitUserMessage msgs input from rfl]
    unfold onStreamError
    rw [submitUserMessage, List.dropLast_concat]

/-- C6 witness: the amended failure behaviour at a concrete one-chunk run. -/
theorem C6_error_replacement_witness :
    onStreamError (runStream (submitUserMessage [] "ping") ["He"]).1
      = [] ++ [optimisticUserMessage "ping", apologyMessage] :=
  C6_error_replacement.1 [] "ping" "He" []

/-- C7 counterexample: a failed history fetch does not leave the view empty —
the view is set to a single bot-authored error message. -/
theorem C7_history_failure_counterexample :
    (loadRoomFailure "network down").messages ≠ [] := by
  decide

/-- C7 (amended): a failed history fetch clears the room identifier
(returning the client to room selection) and leaves the view holding exactly
one bot-authored, identity-absent error message. -/
theorem C7_history_failure :
    ∀ errorDetails : String,
      (loadRoomFailure errorDetails).roomId = none
      ∧ (loadRoomFailure errorDetails).messages.map Message.author = [Author.bot]
      ∧ (loadRoomFailure errorDetails).messages.map Message.id = [none] := by
  intro errorDetails
  exact ⟨rfl, rfl, rfl⟩

/-- C7 witness: the amended failure behaviour at a concrete error string. -/
theorem C7_history_failure_witness :
    (loadRoomFailure "boom").roomId = none
    ∧ (loadRoomFailure "boom").messages.map Message.author = [Author.bot]
    ∧ (loadRoomFailure "boom").messages.map Message.id = [none] :=
  C7_history_failure "boom"

/-- C8: starting from the view seeded with an empty history, one user
submission whose input survives the trim guard followed by one completed
bot stream (at least one chunk, no interleaved remote inserts) yields a view
of exactly two elements in submission order: the user message, then the
finalized bot message. -/
theorem C8_submit_then_stream :
    ∀ (input c : String) (cs : List String),
      jsTrim input ≠ "" →
      (handleSubmit input false true true (seed []) (.success (c :: cs))).messages
        = [optimisticUserMessage input, ⟨none, Author.bot, concatChunks (c :: cs)⟩] := by
  intro input c cs htrim
  have hcond : ¬ (jsTrim input == "" || false || !true || !true) = true := by
    simp [htrim]
  unfold handleSubmit
  rw [if_neg hcond]
  show (runStream (submitUserMessage (seed []) input) (c :: cs)).1 = _
  rw [runStream_submit]
  simp [seed, submitUserMessage]

/-- C8 witness: submitting "ping" on the empty view with the completed
stream ["Hel", "lo"] gives the two-element view. -/
theorem C8_submit_then_stream_witness :
    jsTrim "ping" ≠ ""
    ∧ (handleSubmit "ping" false true true (seed []) (.success ["Hel", "lo"])).messages
        = [optimisticUserMessage "ping", ⟨none, Author.bot, concatChunks ["Hel", "lo"]⟩] :=
  ⟨by decide, C8_submit_then_stream "ping" "Hel" ["lo"] (by decide)⟩

/-- C9: when the input trims to the empty string, or a submission is already
in flight, or no chat session or room identifier exists, `handleSubmit`
returns the view unchanged, persists nothing, and issues no completion
request. -/
theorem C9_submit_guard :
    ∀ (input : String) (loading hasChat hasRoom : Bool) (msgs : List Message)
      (outcome : StreamOutcome),
      (jsTrim input = "" ∨ loading = true ∨ hasChat = false ∨ hasRoom = false) →
      handleSubmit input loading hasChat hasRoom msgs outcome
        = ⟨msgs, false, false, none⟩ := by
  intro input loading hasChat hasRoom msgs outcome h
  have hcond : (jsTrim input == "" || loading || !hasChat || !hasRoom) = true := by
    rcases h with h | h | h | h <;> simp [h]
  unfold handleSubmit
  rw [if_pos hcond]

/-- C9 witness: a whitespace-only input is rejected with no view change and
no requests. -/
theorem C9_submit_guard_witness :
    jsTrim "   " = ""
    ∧ handleSubmit "   " false true true [⟨some 1, Author.bot, "w"⟩] (.success ["x"])
        = ⟨[⟨some 1, Author.bot, "w"⟩], false, false, none⟩ :=
  ⟨by decide,
    C9_submit_guard "   " false true true [⟨some 1, Author.bot, "w"⟩]
      (.success ["x"]) (Or.inl (by decide))⟩

/-- C10: the INSERT callback never removes or reorders entries: it either
leaves the view unchanged, appends one element at the end leaving every
existing position unchanged, or replaces the single matched placeholder
position leaving every other position unchanged; the length grows by exactly
zero or one. -/
theorem C10_frame :
    ∀ (msgs : List Message) (incoming : RemoteMessage),
      ((onRemoteInsert msgs incoming).length = msgs.length
        ∨ (onRemoteInsert msgs incoming).length = msgs.length + 1)
      ∧ (onRemoteInsert msgs incoming = msgs
        ∨ (onRemoteInsert msgs incoming = msgs ++ [incoming.toMessage]
            ∧ ∀ j, j < msgs.length → (onRemoteInsert msgs incoming)[j]? = msgs[j]?)
        ∨ ∃ i, i < msgs.length
            ∧ onRemoteInsert msgs incoming = msgs.set i incoming.toMessage
            ∧ ∀ j, j ≠ i → (onRemoteInsert msgs incoming)[j]? = msgs[j]?) := by
  intro msgs incoming
  cases hf : findLastIdx? (isOptimisticMatch incoming) msgs with
  | some i =>
    obtain ⟨hi, -⟩ := findLastIdx?_sound hf
    have heq := onRemoteInsert_replace hf
    refine ⟨Or.inl (by rw [heq, List.length_set]), Or.inr (Or.inr ⟨i, hi, heq, ?_⟩)⟩
    intro j hj
    rw [heq, List.getElem?_set_ne (Ne.symm hj)]
  | none =>
    cases ha : msgs.any fun m => m.id == some incoming.id with
    | true =>
      have heq := onRemoteInsert_skip hf ha
      exact ⟨Or.inl (by rw [heq]), Or.inl heq⟩
    | false =>
      have heq := onRemoteInsert_append hf ha
      refine ⟨Or.inr (by rw [heq]; simp), Or.inr (Or.inl ⟨heq, ?_⟩)⟩
      intro j hj
      rw [heq, List.getElem?_append_left hj]

/-- C10 witness: the frame property at a concrete view and delivery. -/
theorem C10_frame_witness :
    ((onRemoteInsert [⟨some 4, Author.bot, "m"⟩] ⟨6, Author.user, "n"⟩).length
        = ([⟨some 4, Author.bot, "m"⟩] : List Message).length
      ∨ (onRemoteInsert [⟨some 4, Author.bot, "m"⟩] ⟨6, Author.user, "n"⟩).length
        = ([⟨some 4, Author.bot, "m"⟩] : List Message).length + 1)
    ∧ (onRemoteInsert [⟨some 4, Author.bot, "m"⟩] ⟨6, Author.user, "n"⟩
        = [⟨some 4, Author.bot, "m"⟩]
      ∨ (onRemoteInsert [⟨some 4, Author.bot, "m"⟩] ⟨6, Author.user, "n"⟩
          = [⟨some 4, Author.bot, "m"⟩] ++ [RemoteMessage.toMessage ⟨6, Author.user, "n"⟩]
          ∧ ∀ j, j < ([⟨some 4, Author.bot, "m"⟩] : List Message).length →
              (onRemoteInsert [⟨some 4, Author.bot, "m"⟩] ⟨6, Author.user, "n"⟩)[j]?
                = ([⟨some 4, Author.bot, "m"⟩] : List Message)[j]?)
      ∨ ∃ i, i < ([⟨some 4, Author.bot, "m"⟩] : List Message).length
          ∧ onRemoteInsert [⟨some 4, Author.bot, "m"⟩] ⟨6, Author.user, "n"⟩
              = ([⟨some 4, Author.bot, "m"⟩] : List Message).set i
                  (RemoteMessage.toMessage ⟨6, Author.user, "n"⟩)
          ∧ ∀ j, j ≠ i →
              (onRemoteInsert [⟨some 4, Author.bot, "m"⟩] ⟨6, Author.user, "n"⟩)[j]?
                = ([⟨some 4, Author.bot, "m"⟩] : List Message)[j]?) :=
  C10_frame [⟨some 4, Author.bot, "m"⟩] ⟨6, Author.user, "n"⟩

end ChatLikeLook
